import Mathlib

/-!
# Verification of the `better-fs` core against its specification

Shallow embedding of the data plane of a content-addressed, deduplicating
filesystem: the content-defined chunker (`src/chunker.rs`), the
content-addressed store (`src/storage.rs`) and the file manager
(`src/file_manager.rs`).

Modelling conventions:
* Byte strings are `List Nat`; where a theorem needs the `u8` range it takes
  the hypothesis that every byte is `< 256`.
* The external primitives (SHA-256 and zstd) are packaged in a `Codec`
  record.  Theorems that depend on their library guarantees take those
  guarantees as hypotheses: `hashFn` is injective (collision freedom of
  SHA-256 restricted to the chunks actually stored) and
  `decompress (compress b) = some b` (zstd round-trip).
* The on-disk CAS and the sled recipe database are association lists keyed
  by the chunk hash resp. the path.  The chunk file path
  `root/cas/hash[0:2]/hash[2:]` is a bijective function of the hash (SHA-256
  hex digests all have length 64), so keying the disk map by the hash itself
  is faithful.
* sled buffers writes; `flush` makes them durable.  The model tracks this
  with a `flushed` flag: a db mutation clears it, `flush` sets it.
* Rust `u64` arithmetic in the chunker is modelled with explicit `% 2^64`
  (`wrapping_mul` / `wrapping_add`); file sizes are `Nat` (a `u64` size
  cannot overflow on real inputs).
* I/O failures of the host filesystem and sled, and `bincode`
  serialization failures, are outside the model: the corresponding Rust
  `Result`s are `Err` only on environment failure.  String errors that the
  claims refer to by name are represented by the inductive `FsError`
  carrying the same data as the formatted Rust message.
-/

namespace BetterFs

/-- Raw byte strings (and hash identities, which are byte strings too). -/
abbrev Bytes := List Nat

/-! ## Association-list stores -/

/-- Lookup in an association list (first binding wins, like a map). -/
def lookupA {α β : Type} [DecidableEq α] : List (α × β) → α → Option β
  | [], _ => none
  | (k, v) :: rest, k' => if k = k' then some v else lookupA rest k'

/-- Remove every binding of a key. -/
def eraseA {α β : Type} [DecidableEq α] : List (α × β) → α → List (α × β)
  | [], _ => []
  | (k, v) :: rest, k' => if k = k' then eraseA rest k' else (k, v) :: eraseA rest k'

/-- Insert or replace the binding of a key. -/
def insertA {α β : Type} [DecidableEq α] (m : List (α × β)) (k : α) (v : β) :
    List (α × β) :=
  (k, v) :: eraseA m k

/-! ## Chunker (`src/chunker.rs`) -/

/-- `WINDOW_SIZE` from `src/chunker.rs`. -/
def WINDOW_SIZE : Nat := 48

/-- `MODULUS` from `src/chunker.rs`. -/
def MODULUS : Nat := 1000000007

/-- `BASE` from `src/chunker.rs`. -/
def BASE : Nat := 256

/-- `2 ^ 64`, the wrap-around modulus of Rust `u64` arithmetic. -/
def U64 : Nat := 18446744073709551616

/-- One step of the rolling-hash accumulation:
`current_hash.wrapping_mul(BASE).wrapping_add(b as u64) % MODULUS`. -/
def hstep (h b : Nat) : Nat := ((h * BASE) % U64 + b) % U64 % MODULUS

/-- The chunker state: sliding window and rolling hash. -/
structure Chunker where
  window : Bytes
  current_hash : Nat
deriving DecidableEq

/-- `Chunker::new`. -/
def Chunker.new : Chunker := ⟨[], 0⟩

/-- `Chunker::feed_byte`: push the byte; if the window now exceeds
`WINDOW_SIZE`, drop the oldest byte and recompute the hash from the whole
window, else update the hash incrementally. -/
def Chunker.feed_byte (c : Chunker) (b : Nat) : Chunker :=
  if (c.window ++ [b]).length > WINDOW_SIZE then
    ⟨(c.window ++ [b]).drop 1, ((c.window ++ [b]).drop 1).foldl hstep 0⟩
  else
    ⟨c.window ++ [b], hstep c.current_hash b⟩

/-- `Chunker::should_cut`: window full and low 12 bits of the hash zero
(`current_hash & 0xFFF == 0`). -/
def Chunker.should_cut (c : Chunker) : Bool :=
  if c.window.length < WINDOW_SIZE then false
  else decide (c.current_hash &&& 4095 = 0)

/-- Feed a whole byte list, in order. -/
def Chunker.feedAll (c : Chunker) (data : Bytes) : Chunker :=
  data.foldl Chunker.feed_byte c

/-- The rolling-hash step without the (inert, since `MODULUS * BASE + 255 <
2^64`) u64 wrap-around. -/
def pstep (h b : Nat) : Nat := (h * BASE + b) % MODULUS

/-- The polynomial hash of a window, as the fold the source computes. -/
def polyFold (w : Bytes) : Nat := w.foldl pstep 0

/-- The polynomial hash of a window as the spec writes it:
`Σ w_i · B^(|w|-1-i) mod M` (with `|w| = W` once the window is full). -/
def polySum (w : Bytes) : Nat :=
  (∑ i ∈ Finset.range w.length, w.getD i 0 * BASE ^ (w.length - 1 - i)) % MODULUS

/-! ## Content-addressed store (`src/storage.rs`) -/

/-- The external primitives used by the CAS: the chunk hash
(`hex(SHA-256(·))` in the source) and the zstd codec. -/
structure Codec where
  hashFn : Bytes → Bytes
  compress : Bytes → Bytes
  decompress : Bytes → Option Bytes

/-- The on-disk CAS: a map from chunk hash to the stored (compressed) blob.
The source stores each blob at `root/cas/hash[0:2]/hash[2:]`; that path is a
bijective function of the hash, so the disk is keyed by the hash here. -/
abbrev Cas := List (Bytes × Bytes)

/-- `Storage::write_chunk`: hash the raw data; if a file already exists at
the derived path, return the hash without writing; otherwise compress and
write. -/
def write_chunk (C : Codec) (cas : Cas) (data : Bytes) : Cas × Bytes :=
  match lookupA cas (C.hashFn data) with
  | some _ => (cas, C.hashFn data)
  | none => (insertA cas (C.hashFn data) (C.compress data), C.hashFn data)

/-- Failure modes of `Storage::read_chunk`: the chunk file is absent, or
decompression fails. -/
inductive ChunkErr
  | chunkMissing
  | corrupt
deriving DecidableEq

/-- `Storage::read_chunk`: `NotFound` if the file is absent, else
decompress (failing if the blob is corrupt). -/
def read_chunk (C : Codec) (cas : Cas) (h : Bytes) : Except ChunkErr Bytes :=
  match lookupA cas h with
  | none => .error .chunkMissing
  | some blob =>
    match C.decompress blob with
    | some d => .ok d
    | none => .error .corrupt

/-- `Storage::list_all_chunks`: every hash that has a chunk file on disk. -/
def list_all_chunks (cas : Cas) : List Bytes := cas.map Prod.fst

/-- `Storage::delete_chunk`: remove the chunk file; absence is not an
error. -/
def delete_chunk (cas : Cas) (h : Bytes) : Cas := eraseA cas h

/-! ## File manager data model (`src/file_manager.rs`) -/

/-- `FileKind`. -/
inductive FileKind
  | File
  | Directory
deriving DecidableEq

/-- `FileRecipe`. -/
structure FileRecipe where
  file_size : Nat
  chunks : List Bytes
  kind : FileKind
deriving DecidableEq

/-- The sled database: path to (deserialized) recipe.  `bincode` round-trips
(`deserialize (serialize r) = r`), so the db is modelled at the recipe
level.  `flushed` tracks sled durability: a mutation clears it, `flush`
sets it. -/
abbrev Db := List (String × FileRecipe)

/-- The `FileManager` state: the recipe database, whether every db mutation
so far has been flushed, and the CAS it owns. -/
structure FM where
  db : Db
  flushed : Bool
  cas : Cas
deriving DecidableEq

/-! ## The write pipeline (`create_recipe_from_data`) -/

/-- The loop state of `create_recipe_from_data`: the chunker, the pending
buffer `current_chunk_buffer`, the recipe hash list so far, the CAS, and the
running `total_size`.  `emitted` is a ghost log of the arguments passed to
`write_chunk`, in order. -/
structure WriteSt where
  ck : Chunker
  buf : Bytes
  hashes : List Bytes
  cas : Cas
  total : Nat
  emitted : List Bytes
deriving DecidableEq

/-- Emit the pending buffer as one chunk: write it to the CAS, append the
returned hash to the recipe, add its length to `total_size`, clear the
buffer. -/
def emitChunk (C : Codec) (s : WriteSt) : WriteSt :=
  { ck := s.ck
    buf := []
    hashes := s.hashes ++ [(write_chunk C s.cas s.buf).2]
    cas := (write_chunk C s.cas s.buf).1
    total := s.total + s.buf.length
    emitted := s.emitted ++ [s.buf] }

/-- The cut condition of the loop body:
`(chunker.should_cut() && buf.len() >= 2048) || buf.len() >= 65536`. -/
def cutCond (s : WriteSt) : Bool :=
  (s.ck.should_cut && decide (2048 ≤ s.buf.length)) || decide (65536 ≤ s.buf.length)

/-- The first half of the loop body: push the byte into the pending buffer
and feed it to the chunker. -/
def pushByte (s : WriteSt) (b : Nat) : WriteSt :=
  { s with buf := s.buf ++ [b], ck := s.ck.feed_byte b }

/-- One iteration of the `for &byte in data` loop: push the byte, then emit
the pending buffer if the cut condition holds. -/
def writeStep (C : Codec) (s : WriteSt) (b : Nat) : WriteSt :=
  if cutCond (pushByte s b) then emitChunk C (pushByte s b) else pushByte s b

/-- The whole loop. -/
def writeLoop (C : Codec) : WriteSt → Bytes → WriteSt
  | s, [] => s
  | s, b :: rest => writeLoop C (writeStep C s b) rest

/-- The initial loop state over a given CAS. -/
def initSt (cas : Cas) : WriteSt := ⟨Chunker.new, [], [], cas, 0, []⟩

/-- The state after the loop and the tail handling (a non-empty remainder is
emitted as the final chunk). -/
def finalSt (C : Codec) (cas : Cas) (data : Bytes) : WriteSt :=
  let s := writeLoop C (initSt cas) data
  if s.buf.isEmpty then s else emitChunk C s

/-- `FileManager::create_recipe_from_data`: the recipe built from the data
and the CAS extended with the written chunks. -/
def create_recipe_from_data (C : Codec) (cas : Cas) (data : Bytes) :
    FileRecipe × Cas :=
  let s := finalSt C cas data
  (⟨s.total, s.hashes, .File⟩, s.cas)

/-! ## File manager operations -/

/-- `FileManager::write_file`: build the recipe, insert it under the
filename, flush. -/
def write_file (C : Codec) (fm : FM) (filename : String) (data : Bytes) : FM :=
  let r := create_recipe_from_data C fm.cas data
  { db := insertA fm.db filename r.1, flushed := true, cas := r.2 }

/-- The errors `read_file` reports, with the data the Rust message carries:
`"File not found: {path}"` and `"Storage corrupted. Chunk {hash} missing"`. -/
inductive FsError
  | notFound (path : String)
  | storageCorrupt (hash : Bytes)
deriving DecidableEq

/-- The reconstruction loop of `read_file`: read each chunk in order and
concatenate; fail with `storageCorrupt h` at the first hash `h` whose chunk
is missing or corrupt. -/
def readAll (C : Codec) (cas : Cas) : List Bytes → Except FsError Bytes
  | [] => .ok []
  | h :: rest =>
    match read_chunk C cas h with
    | .error _ => .error (.storageCorrupt h)
    | .ok d =>
      match readAll C cas rest with
      | .ok t => .ok (d ++ t)
      | .error e => .error e

/-- `FileManager::read_file`: look up the recipe (absent is `NotFound`),
return empty bytes for a directory, else reconstruct from the chunks. -/
def read_file (C : Codec) (fm : FM) (filename : String) : Except FsError Bytes :=
  match lookupA fm.db filename with
  | none => .error (.notFound filename)
  | some r => if r.kind = .Directory then .ok [] else readAll C fm.cas r.chunks

/-- `FileManager::delete_file`: `self.db.remove(filename)`; sled `remove`
succeeds whether or not the key is present, and no flush is issued. -/
def delete_file (fm : FM) (filename : String) : Except String FM :=
  .ok { fm with db := eraseA fm.db filename, flushed := false }

/-- `FileManager::rename_file`: read the recipe at the old name (absent is
an error), insert it under the new name, then remove the old name; no
flush. -/
def rename_file (fm : FM) (old_name new_name : String) : Except String FM :=
  match lookupA fm.db old_name with
  | some data =>
    .ok { fm with db := eraseA (insertA fm.db new_name data) old_name
                  flushed := false }
  | none => .error "File not found"

/-- `FileManager::create_directory`: insert a
`(size=0, chunks=[], kind=Directory)` recipe; no flush. -/
def create_directory (fm : FM) (path : String) : Except String FM :=
  .ok { fm with db := insertA fm.db path ⟨0, [], .Directory⟩, flushed := false }

/-- Modelled from the spec: `run_gc` is invoked by `tests/gc_test.rs` but its
definition is not among the files under `src/`.  Spec §4.4: build `live` as
the union of `recipe.chunks` over every recipe in the store, delete every
chunk on disk whose hash is not in `live`, and return the number of chunks
deleted. -/
def run_gc (fm : FM) : FM × Nat :=
  let live := (fm.db.map (fun p => p.2.chunks)).flatten
  let dead := (list_all_chunks fm.cas).filter (fun h => decide (h ∉ live))
  ({ fm with cas := dead.foldl delete_chunk fm.cas }, dead.length)

/-! ## Well-formedness invariants -/

/-- CAS integrity (spec invariant I1): every blob on disk decompresses to
bytes whose hash is its file name. -/
def CasWf (C : Codec) (cas : Cas) : Prop :=
  ∀ h blob, lookupA cas h = some blob →
    ∃ d, C.decompress blob = some d ∧ C.hashFn d = h

/-- Recipe soundness (spec invariant I2): every hash appearing in a live
recipe resolves to a chunk on disk. -/
def RecipesSound (fm : FM) : Prop :=
  ∀ p r, lookupA fm.db p = some r → ∀ h ∈ r.chunks, (lookupA fm.cas h).isSome

/-! ## Concrete instances used by the witnesses -/

/-- A concrete codec for witnesses: the identity hash (injective) and the
identity compressor. -/
def Cid : Codec := ⟨id, id, some⟩

/-- An empty file-manager state. -/
def fmE : FM := ⟨[], true, []⟩

/-- A file-manager state holding one zero-length file `a`. -/
def fmA : FM := ⟨[("a", ⟨0, [], .File⟩)], true, []⟩

/-- A store whose only recipe references the absent chunk hash `[9]`. -/
def fmC : FM := ⟨[("f", ⟨1, [[9]], .File⟩)], true, []⟩

/-- A store with one live file using chunk `[7]` and one orphan chunk `[9]`
on disk. -/
def fmG : FM := ⟨[("b", ⟨1, [[7]], .File⟩)], true, [([7], [7]), ([9], [9])]⟩

/-! ## Lemmas about the association stores -/

theorem lookupA_insertA_self {α β : Type} [DecidableEq α]
    (m : List (α × β)) (k : α) (v : β) : lookupA (insertA m k v) k = some v := by
  simp [insertA, lookupA]

theorem lookupA_eraseA_self {α β : Type} [DecidableEq α]
    (m : List (α × β)) (k : α) : lookupA (eraseA m k) k = none := by
  induction m with
  | nil => rfl
  | cons hd tl ih =>
    obtain ⟨a, v⟩ := hd
    by_cases ha : a = k
    · simp [eraseA, ha, ih]
    · simp [eraseA, ha, lookupA, ih]

theorem lookupA_eraseA_ne {α β : Type} [DecidableEq α]
    (m : List (α × β)) {k k' : α} (h : k' ≠ k) :
    lookupA (eraseA m k) k' = lookupA m k' := by
  induction m with
  | nil => rfl
  | cons hd tl ih =>
    obtain ⟨a, v⟩ := hd
    by_cases ha : a = k
    · subst ha
      simpa [eraseA, lookupA, Ne.symm h] using ih
    · by_cases ha' : a = k'
      · subst ha'
        simp [eraseA, lookupA, h]
      · simp [eraseA, ha, lookupA, ha', ih]

theorem lookupA_insertA_ne {α β : Type} [DecidableEq α]
    (m : List (α × β)) {k k' : α} (v : β) (h : k' ≠ k) :
    lookupA (insertA m k v) k' = lookupA m k' := by
  simp [insertA, lookupA, Ne.symm h, lookupA_eraseA_ne m h]

theorem lookupA_mem {α β : Type} [DecidableEq α]
    {m : List (α × β)} {k : α} {v : β} (h : lookupA m k = some v) : (k, v) ∈ m := by
  induction m with
  | nil => simp [lookupA] at h
  | cons hd tl ih =>
    obtain ⟨a, w⟩ := hd
    by_cases ha : a = k
    · subst ha
      simp [lookupA] at h
      simp [h]
    · simp [lookupA, ha] at h
      simp [ih h]

theorem mem_lookupA_of_nodup {α β : Type} [DecidableEq α]
    {m : List (α × β)} (hnd : (m.map Prod.fst).Nodup) {k : α} {v : β}
    (h : (k, v) ∈ m) : lookupA m k = some v := by
  induction m with
  | nil => simp at h
  | cons hd tl ih =>
    obtain ⟨a, w⟩ := hd
    simp only [List.map_cons, List.nodup_cons] at hnd
    rcases List.mem_cons.mp h with h1 | h1
    · obtain ⟨rfl, rfl⟩ := Prod.mk.injEq .. ▸ h1
      simp_all [lookupA]
    · have hka : a ≠ k := by
        rintro rfl
        exact hnd.1 (List.mem_map.mpr ⟨(a, v), h1, rfl⟩)
      simp [lookupA, hka, ih hnd.2 h1]

theorem lookupA_isSome_iff_mem_keys {α β : Type} [DecidableEq α]
    (m : List (α × β)) (k : α) :
    (lookupA m k).isSome = true ↔ k ∈ m.map Prod.fst := by
  induction m with
  | nil => simp [lookupA]
  | cons hd tl ih =>
    obtain ⟨a, v⟩ := hd
    by_cases ha : a = k
    · simp [lookupA, ha]
    · simp [lookupA, ha, ih, Ne.symm ha]

/-!
## C9: `write_chunk` is deduplicating and idempotent
-/

/-- **C9** (confirmed).  `write_chunk(b)` returns `hex(SHA-256(b))`; a second
call on the same bytes returns the same hash and leaves the CAS state
unchanged, because the file at the hash-derived path already exists after the
first call. -/
theorem claim_C9_write_chunk_dedup (C : Codec) (cas : Cas) (b : Bytes) :
    (write_chunk C cas b).2 = C.hashFn b ∧
    write_chunk C (write_chunk C cas b).1 b = ((write_chunk C cas b).1, C.hashFn b) ∧
    (lookupA (write_chunk C cas b).1 (C.hashFn b)).isSome = true := by
  unfold write_chunk
  cases h : lookupA cas (C.hashFn b) with
  | some blob => simp [h]
  | none => simp [h, lookupA_insertA_self]

/-!
## C4: `delete_file` on an absent path
-/

/-- **C4 counterexample.**  The claim says absence of the path is a failure;
the code's `delete_file` simply forwards sled's `remove`, which succeeds on
an absent key: deleting `"a"` from the empty store returns `Ok`. -/
theorem claim_C4_counterexample :
    lookupA fmE.db "a" = none ∧
      delete_file fmE "a" = .ok ⟨[], false, ([] : Cas)⟩ := by
  constructor
  · rfl
  · rfl

/-- **C4** (corrected).  `delete_file(p)` always succeeds: it removes the
recipe at `p` when present (afterwards `p` has no recipe) and is a successful
no-op on the recipes at other paths; absence of `p` is not an error. -/
theorem claim_C4_delete_always_succeeds (fm : FM) (p : String) :
    ∃ fm', delete_file fm p = .ok fm' ∧ lookupA fm'.db p = none ∧
      ∀ q, q ≠ p → lookupA fm'.db q = lookupA fm.db q := by
  refine ⟨_, rfl, lookupA_eraseA_self fm.db p, fun q hq => ?_⟩
  exact lookupA_eraseA_ne fm.db hq

/-- Witness for C4: deleting the present file `"a"` from `fmA`. -/
theorem claim_C4_witness :
    ∃ fm', delete_file fmA "a" = .ok fm' ∧ lookupA fm'.db "a" = none ∧
      ∀ q, q ≠ "a" → lookupA fm'.db q = lookupA fmA.db q :=
  claim_C4_delete_always_succeeds fmA "a"

/-!
## C3: which mutating operations flush
-/

/-- **C3 counterexample.**  A successful mutating call after which the store
is not flushed: `delete_file` on a present key returns `Ok` with the flushed
flag cleared — it never calls `flush`, contradicting the claim that every
mutating operation flushes before returning successfully. -/
theorem claim_C3_counterexample :
    delete_file fmA "a" = .ok ⟨[], false, ([] : Cas)⟩ := by
  rfl

/-- **C3** (corrected).  Of the mutating operations, only `write_file`
flushes the recipe store before returning; `delete_file`, `rename_file` and
`create_directory` return successfully without calling `flush`. -/
theorem claim_C3_only_write_file_flushes (C : Codec) (fm : FM)
    (p old_name new_name q : String) (data : Bytes) :
    (write_file C fm p data).flushed = true ∧
    (∀ fm', delete_file fm p = .ok fm' → fm'.flushed = false) ∧
    (∀ fm', rename_file fm old_name new_name = .ok fm' → fm'.flushed = false) ∧
    (∀ fm', create_directory fm q = .ok fm' → fm'.flushed = false) := by
  refine ⟨rfl, ?_, ?_, ?_⟩
  · intro fm' h
    cases h
    rfl
  · intro fm' h
    unfold rename_file at h
    cases hl : lookupA fm.db old_name with
    | some r => rw [hl] at h; cases h; rfl
    | none => rw [hl] at h; cases h
  · intro fm' h
    cases h
    rfl

/-- Witness for C3: concrete flushed flags after `write_file` and after a
successful `delete_file`. -/
theorem claim_C3_witness :
    (write_file Cid fmE "x" []).flushed = true ∧
      (⟨[], false, ([] : Cas)⟩ : FM).flushed = false :=
  ⟨(claim_C3_only_write_file_flushes Cid fmE "x" "a" "b" "c" []).1,
   (claim_C3_only_write_file_flushes Cid fmA "a" "a" "b" "c" []).2.1
     ⟨[], false, ([] : Cas)⟩ (by rfl)⟩

/-!
## C10: rename of a path to itself deletes it
-/

/-- **C10** (confirmed).  `rename_file(p, p)` on a present path returns
success but deletes the recipe: the insert under the new name and the removal
of the old name act on the same key, so a following `read_file(p)` fails with
`NotFound`. -/
theorem claim_C10_rename_self_deletes (C : Codec) (fm : FM) (p : String)
    (r : FileRecipe) (h : lookupA fm.db p = some r) :
    ∃ fm', rename_file fm p p = .ok fm' ∧ lookupA fm'.db p = none ∧
      read_file C fm' p = .error (.notFound p) := by
  refine ⟨_, by rw [rename_file, h], ?_, ?_⟩
  · exact lookupA_eraseA_self _ p
  · rw [read_file, lookupA_eraseA_self _ p]

/-- Witness for C10: renaming `"a"` to itself in `fmA`. -/
theorem claim_C10_witness :
    ∃ fm', rename_file fmA "a" "a" = .ok fm' ∧ lookupA fm'.db "a" = none ∧
      read_file Cid fm' "a" = .error (.notFound "a") :=
  claim_C10_rename_self_deletes Cid fmA "a" ⟨0, [], .File⟩ (by rfl)

/-!
## C8: rename between distinct paths
-/

/-- **C8** (confirmed).  For distinct paths `a ≠ b`: if `a` has a recipe,
`rename_file(a, b)` succeeds (overwriting whatever was at `b`), afterwards
`read_file(b)` returns what `read_file(a)` returned before and `read_file(a)`
fails with `NotFound`; if `a` has no recipe, `rename_file(a, b)` fails. -/
theorem claim_C8_rename (C : Codec) (fm : FM) (a b : String) (hab : a ≠ b) :
    (∀ r, lookupA fm.db a = some r →
      ∃ fm', rename_file fm a b = .ok fm' ∧
        read_file C fm' b = read_file C fm a ∧
        read_file C fm' a = .error (.notFound a)) ∧
    (lookupA fm.db a = none → rename_file fm a b = .error "File not found") := by
  constructor
  · intro r hr
    refine ⟨_, by rw [rename_file, hr], ?_, ?_⟩
    · have hb : lookupA (eraseA (insertA fm.db b r) a) b = some r := by
        rw [lookupA_eraseA_ne _ (Ne.symm hab), lookupA_insertA_self]
      rw [read_file, read_file, hb, hr]
    · rw [read_file, lookupA_eraseA_self]
  · intro ha
    rw [rename_file, ha]

/-- Witness for C8: renaming the present `"a"` to `"b"` in `fmA`. -/
theorem claim_C8_witness :
    (∃ fm', rename_file fmA "a" "b" = .ok fm' ∧
      read_file Cid fm' "b" = read_file Cid fmA "a" ∧
      read_file Cid fm' "a" = .error (.notFound "a")) ∧
    rename_file fmE "a" "b" = .error "File not found" :=
  ⟨(claim_C8_rename Cid fmA "a" "b" (by decide)).1 ⟨0, [], .File⟩ (by rfl),
   (claim_C8_rename Cid fmE "a" "b" (by decide)).2 (by rfl)⟩

/-!
## C6: the chunker's rolling hash and cut condition
-/

theorem MODULUS_pos : 0 < MODULUS := by unfold MODULUS; omega

theorem hstep_eq {h b : Nat} (hb : b < 256) (hh : h < MODULUS) :
    hstep h b = pstep h b := by
  have hM : MODULUS = 1000000007 := rfl
  have h1 : h * BASE < U64 := by unfold BASE U64; omega
  have h2 : h * BASE % U64 + b < U64 := by
    rw [Nat.mod_eq_of_lt h1]
    unfold BASE U64
    omega
  rw [hstep, pstep, Nat.mod_eq_of_lt h2, Nat.mod_eq_of_lt h1]

theorem pstep_lt (h b : Nat) : pstep h b < MODULUS :=
  Nat.mod_lt _ MODULUS_pos

theorem foldl_hstep_eq : ∀ (l : Bytes) {h : Nat}, (∀ b ∈ l, b < 256) →
    h < MODULUS → l.foldl hstep h = l.foldl pstep h := by
  intro l
  induction l with
  | nil => intro h _ _; rfl
  | cons b t ih =>
    intro h hb hh
    simp only [List.foldl_cons]
    rw [hstep_eq (hb b (by simp)) hh]
    exact ih (fun x hx => hb x (by simp [hx])) (pstep_lt h b)

theorem polyFold_append (w : Bytes) (b : Nat) :
    polyFold (w ++ [b]) = pstep (polyFold w) b := by
  simp [polyFold, List.foldl_append]

theorem polyFold_lt (w : Bytes) : polyFold w < MODULUS := by
  induction w using List.reverseRecOn with
  | nil => norm_num [polyFold, MODULUS]
  | append_singleton w b _ => rw [polyFold_append]; exact pstep_lt _ _

theorem polyFold_eq_polySum (w : Bytes) : polyFold w = polySum w := by
  induction w using List.reverseRecOn with
  | nil => simp [polyFold, polySum, List.foldl]
  | append_singleton w b ih =>
    have hsum : (∑ i ∈ Finset.range (w ++ [b]).length,
        (w ++ [b]).getD i 0 * BASE ^ ((w ++ [b]).length - 1 - i)) =
        (∑ i ∈ Finset.range w.length, w.getD i 0 * BASE ^ (w.length - 1 - i)) *
          BASE + b := by
      rw [List.length_append, List.length_singleton, Finset.sum_range_succ]
      have hlast : (w ++ [b]).getD w.length 0 = b := by
        simp [List.getD]
      rw [hlast]
      simp only [Nat.add_sub_cancel, Nat.sub_self, pow_zero, mul_one]
      congr 1
      rw [Finset.sum_mul]
      refine Finset.sum_congr rfl fun i hi => ?_
      have hi' : i < w.length := Finset.mem_range.mp hi
      have hgd : (w ++ [b]).getD i 0 = w.getD i 0 := by
        simp [List.getD, List.getElem?_append, hi']
      rw [hgd, mul_assoc, ← pow_succ]
      congr 2
      omega
    rw [polyFold_append, ih]
    unfold pstep polySum
    rw [hsum]
    exact (Nat.mod_modEq _ MODULUS).mul_right BASE |>.add_right b

theorem feedAll_window_hash (data : Bytes) (hb : ∀ b ∈ data, b < 256) :
    (Chunker.new.feedAll data).window = data.drop (data.length - WINDOW_SIZE) ∧
    (Chunker.new.feedAll data).current_hash =
      polyFold (Chunker.new.feedAll data).window := by
  induction data using List.reverseRecOn with
  | nil => exact ⟨rfl, rfl⟩
  | append_singleton d b ih =>
    have hWdef : WINDOW_SIZE = 48 := rfl
    have hb' : ∀ x ∈ d, x < 256 := fun x hx => hb x (by simp [hx])
    have hbb : b < 256 := hb b (by simp)
    obtain ⟨hw, hh⟩ := ih hb'
    have hfeed : Chunker.new.feedAll (d ++ [b]) =
        (Chunker.new.feedAll d).feed_byte b := by
      simp [Chunker.feedAll, List.foldl_append]
    have hwlen : (Chunker.new.feedAll d).window.length =
        d.length - (d.length - WINDOW_SIZE) := by
      rw [hw, List.length_drop]
    have hlen1 : ((Chunker.new.feedAll d).window ++ [b]).length =
        (Chunker.new.feedAll d).window.length + 1 := by
      rw [List.length_append, List.length_singleton]
    rw [hfeed]
    unfold Chunker.feed_byte
    by_cases hlen : ((Chunker.new.feedAll d).window ++ [b]).length > WINDOW_SIZE
    · have hd48 : WINDOW_SIZE ≤ d.length := by
        rw [hlen1, hwlen] at hlen
        omega
      rw [if_pos hlen]
      have hwin : (((Chunker.new.feedAll d).window ++ [b]).drop 1) =
          (d ++ [b]).drop ((d ++ [b]).length - WINDOW_SIZE) := by
        have hlen2 : (d ++ [b]).length - WINDOW_SIZE = (d.length - WINDOW_SIZE) + 1 := by
          rw [List.length_append, List.length_singleton]
          omega
        rw [hw, List.drop_append_of_le_length (by rw [List.length_drop]; omega),
          List.drop_drop, hlen2, List.drop_append_of_le_length (by omega)]
      have hmem : ∀ x ∈ ((Chunker.new.feedAll d).window ++ [b]).drop 1, x < 256 := by
        intro x hx
        rcases List.mem_append.mp (List.mem_of_mem_drop hx) with h1 | h1
        · exact hb' x (List.mem_of_mem_drop (hw ▸ h1))
        · rw [List.mem_singleton.mp h1]; exact hbb
      exact ⟨hwin, foldl_hstep_eq _ hmem MODULUS_pos⟩
    · have hd48 : d.length < WINDOW_SIZE := by
        rw [hlen1, hwlen] at hlen
        omega
      have hwd : (Chunker.new.feedAll d).window = d := by
        rw [hw]
        have h0 : d.length - WINDOW_SIZE = 0 := by omega
        rw [h0, List.drop_zero]
      rw [if_neg hlen]
      constructor
      · rw [hwd, List.length_append, List.length_singleton]
        have h0 : d.length + 1 - WINDOW_SIZE = 0 := by omega
        rw [h0, List.drop_zero]
      · rw [hwd] at hh ⊢
        show hstep (Chunker.new.feedAll d).current_hash b = polyFold (d ++ [b])
        rw [hh, hstep_eq hbb (polyFold_lt d), ← polyFold_append]

/-- **C6** (confirmed).  Feeding any byte sequence (each byte in the `u8`
range) to a fresh chunker: the window is the last `W = 48` bytes of the
input, the rolling hash equals the polynomial hash
`(Σ w_i · B^(|w|-1-i)) mod M` over the current window (`B = 256`,
`M = 1_000_000_007`; `|w| = W` once the window is full), `should_cut` holds
exactly when the window holds 48 bytes and the low 12 bits of the hash are
zero, and an input shorter than 48 bytes never produces a cut. -/
theorem claim_C6_chunker_hash_and_cut (data : Bytes) (hb : ∀ b ∈ data, b < 256) :
    (Chunker.new.feedAll data).window = data.drop (data.length - WINDOW_SIZE) ∧
    (Chunker.new.feedAll data).current_hash =
      (∑ i ∈ Finset.range (Chunker.new.feedAll data).window.length,
        (Chunker.new.feedAll data).window.getD i 0 *
          BASE ^ ((Chunker.new.feedAll data).window.length - 1 - i)) % MODULUS ∧
    ((Chunker.new.feedAll data).should_cut = true ↔
      (Chunker.new.feedAll data).window.length = WINDOW_SIZE ∧
        (Chunker.new.feedAll data).current_hash % 4096 = 0) ∧
    (data.length < WINDOW_SIZE → (Chunker.new.feedAll data).should_cut = false) := by
  obtain ⟨hw, hh⟩ := feedAll_window_hash data hb
  have hwlen : (Chunker.new.feedAll data).window.length ≤ WINDOW_SIZE := by
    rw [hw, List.length_drop]
    omega
  have hmask : ∀ n : Nat, n &&& 4095 = n % 4096 := by
    intro n
    have := Nat.and_pow_two_sub_one_eq_mod n 12
    norm_num at this
    exact this
  refine ⟨hw, by rw [hh, polyFold_eq_polySum]; rfl, ?_, ?_⟩
  · unfold Chunker.should_cut
    by_cases hl : (Chunker.new.feedAll data).window.length < WINDOW_SIZE
    · simp only [hl, if_true]
      constructor
      · intro h; cases h
      · intro h; omega
    · simp only [hl, if_false]
      rw [decide_eq_true_eq, hmask]
      constructor
      · intro h; exact ⟨by omega, h⟩
      · intro h; exact h.2
  · intro hshort
    unfold Chunker.should_cut
    have : (Chunker.new.feedAll data).window.length < WINDOW_SIZE := by
      rw [hw, List.length_drop]
      omega
    simp [this]

/-- Witness for C6: a concrete 3-byte input (all bytes below 256). -/
theorem claim_C6_witness :
    (Chunker.new.feedAll [10, 20, 30]).window =
        ([10, 20, 30] : Bytes).drop (([10, 20, 30] : Bytes).length - WINDOW_SIZE) ∧
    (Chunker.new.feedAll [10, 20, 30]).current_hash =
      (∑ i ∈ Finset.range (Chunker.new.feedAll [10, 20, 30]).window.length,
        (Chunker.new.feedAll [10, 20, 30]).window.getD i 0 *
          BASE ^ ((Chunker.new.feedAll [10, 20, 30]).window.length - 1 - i)) % MODULUS ∧
    ((Chunker.new.feedAll [10, 20, 30]).should_cut = true ↔
      (Chunker.new.feedAll [10, 20, 30]).window.length = WINDOW_SIZE ∧
        (Chunker.new.feedAll [10, 20, 30]).current_hash % 4096 = 0) ∧
    (([10, 20, 30] : Bytes).length < WINDOW_SIZE →
      (Chunker.new.feedAll [10, 20, 30]).should_cut = false) :=
  claim_C6_chunker_hash_and_cut [10, 20, 30] (by decide)

/-!
## C5: chunk emission discipline of `create_recipe_from_data`
-/

theorem cutCond_iff (s : WriteSt) (b : Nat) :
    cutCond (pushByte s b) = true ↔
      ((s.ck.feed_byte b).should_cut = true ∧ 2048 ≤ (s.buf ++ [b]).length) ∨
        65536 ≤ (s.buf ++ [b]).length := by
  simp [cutCond, pushByte, Bool.or_eq_true, Bool.and_eq_true, decide_eq_true_eq]

theorem writeStep_flatten (C : Codec) (s : WriteSt) (b : Nat) :
    (writeStep C s b).emitted.flatten ++ (writeStep C s b).buf =
      s.emitted.flatten ++ (s.buf ++ [b]) := by
  unfold writeStep
  by_cases h : cutCond (pushByte s b) = true
  · rw [if_pos h]
    simp [emitChunk, pushByte]
  · rw [if_neg h]
    simp [pushByte]

theorem writeLoop_flatten (C : Codec) (data : Bytes) : ∀ s : WriteSt,
    (writeLoop C s data).emitted.flatten ++ (writeLoop C s data).buf =
      s.emitted.flatten ++ s.buf ++ data := by
  induction data with
  | nil => intro s; simp [writeLoop]
  | cons b t ih =>
    intro s
    simp only [writeLoop]
    rw [ih (writeStep C s b), writeStep_flatten]
    simp

theorem writeStep_total (C : Codec) (s : WriteSt) (b : Nat) :
    (writeStep C s b).total + (writeStep C s b).buf.length =
      s.total + s.buf.length + 1 := by
  unfold writeStep
  by_cases h : cutCond (pushByte s b) = true
  · rw [if_pos h]
    simp [emitChunk, pushByte]
    omega
  · rw [if_neg h]
    simp [pushByte]
    omega

theorem writeLoop_total (C : Codec) (data : Bytes) : ∀ s : WriteSt,
    (writeLoop C s data).total + (writeLoop C s data).buf.length =
      s.total + s.buf.length + data.length := by
  induction data with
  | nil => intro s; simp [writeLoop]
  | cons b t ih =>
    intro s
    simp only [writeLoop]
    rw [ih (writeStep C s b)]
    rw [writeStep_total]
    simp [List.length_cons]
    omega

theorem writeStep_chunks (C : Codec) (s : WriteSt) (b : Nat)
    (h1 : ∀ c ∈ s.emitted, 1 ≤ c.length ∧ c.length ≤ 65536)
    (h2 : s.buf.length ≤ 65535) :
    (∀ c ∈ (writeStep C s b).emitted, 1 ≤ c.length ∧ c.length ≤ 65536) ∧
      (writeStep C s b).buf.length ≤ 65535 := by
  unfold writeStep
  by_cases h : cutCond (pushByte s b) = true
  · rw [if_pos h]
    refine ⟨?_, by simp [emitChunk]⟩
    intro c hc
    simp [emitChunk, pushByte] at hc
    rcases hc with hc | hc
    · exact h1 c hc
    · subst hc
      simp
      omega
  · rw [if_neg h]
    have hb : ¬ 65536 ≤ (pushByte s b).buf.length := by
      intro hge
      exact h (by simp [cutCond, hge])
    refine ⟨fun c hc => h1 c (by simpa [pushByte] using hc), ?_⟩
    simp [pushByte] at hb ⊢
    omega

theorem writeLoop_chunks (C : Codec) (data : Bytes) : ∀ s : WriteSt,
    (∀ c ∈ s.emitted, 1 ≤ c.length ∧ c.length ≤ 65536) → s.buf.length ≤ 65535 →
    (∀ c ∈ (writeLoop C s data).emitted, 1 ≤ c.length ∧ c.length ≤ 65536) ∧
      (writeLoop C s data).buf.length ≤ 65535 := by
  induction data with
  | nil => intro s h1 h2; exact ⟨h1, h2⟩
  | cons b t ih =>
    intro s h1 h2
    simp only [writeLoop]
    obtain ⟨h1', h2'⟩ := writeStep_chunks C s b h1 h2
    exact ih (writeStep C s b) h1' h2'

theorem finalSt_flatten_buf (C : Codec) (cas : Cas) (data : Bytes) :
    (finalSt C cas data).emitted.flatten = data ∧ (finalSt C cas data).buf = [] := by
  unfold finalSt
  have hj : (writeLoop C (initSt cas) data).emitted.flatten ++
      (writeLoop C (initSt cas) data).buf = data := by
    simpa [initSt] using writeLoop_flatten C data (initSt cas)
  by_cases hb : (writeLoop C (initSt cas) data).buf.isEmpty = true
  · rw [if_pos hb]
    rw [List.isEmpty_iff] at hb
    rw [hb, List.append_nil] at hj
    exact ⟨hj, hb⟩
  · rw [if_neg hb]
    constructor
    · simp only [emitChunk, List.flatten_append, List.flatten_cons, List.flatten_nil,
        List.append_nil]
      exact hj
    · rfl

theorem finalSt_total (C : Codec) (cas : Cas) (data : Bytes) :
    (finalSt C cas data).total = data.length := by
  unfold finalSt
  have ht : (writeLoop C (initSt cas) data).total +
      (writeLoop C (initSt cas) data).buf.length = data.length := by
    simpa [initSt] using writeLoop_total C data (initSt cas)
  by_cases hb : (writeLoop C (initSt cas) data).buf.isEmpty = true
  · rw [if_pos hb]
    rw [List.isEmpty_iff] at hb
    rw [hb] at ht
    simpa using ht
  · rw [if_neg hb]
    simp only [emitChunk]
    omega

/-- **C5** (confirmed).  In `create_recipe_from_data`: a loop step emits a
chunk exactly when the chunker (fed the new byte) signals a cut and the
pending buffer (with the new byte) holds at least 2048 bytes, or that buffer
has reached 65536 bytes; every chunk passed to the CAS has length between 1
and 65536; the emitted chunks concatenate back to the input (any non-empty
remainder being the final chunk); and the recipe's size field equals the
total input length. -/
theorem claim_C5_chunk_emission (C : Codec) (cas : Cas) (data : Bytes) :
    (∀ (s : WriteSt) (b : Nat),
      (writeStep C s b).emitted = s.emitted ++ [s.buf ++ [b]] ↔
        ((s.ck.feed_byte b).should_cut = true ∧ 2048 ≤ (s.buf ++ [b]).length) ∨
          65536 ≤ (s.buf ++ [b]).length) ∧
    (∀ c ∈ (finalSt C cas data).emitted, 1 ≤ c.length ∧ c.length ≤ 65536) ∧
    (finalSt C cas data).emitted.flatten = data ∧
    (create_recipe_from_data C cas data).1.file_size = data.length := by
  refine ⟨?_, ?_, (finalSt_flatten_buf C cas data).1, finalSt_total C cas data⟩
  · intro s b
    unfold writeStep
    by_cases h : cutCond (pushByte s b) = true
    · rw [if_pos h]
      refine ⟨fun _ => (cutCond_iff s b).mp h, fun _ => ?_⟩
      simp [emitChunk, pushByte]
    · rw [if_neg h]
      constructor
      · intro heq
        exfalso
        simp only [pushByte] at heq
        have := congrArg List.length heq
        simp at this
      · intro hr
        exact absurd ((cutCond_iff s b).mpr hr) h
  · have hfin : ∀ c ∈ (writeLoop C (initSt cas) data).emitted,
        1 ≤ c.length ∧ c.length ≤ 65536 :=
      (writeLoop_chunks C data (initSt cas) (by simp [initSt]) (by simp [initSt])).1
    have hbuf : (writeLoop C (initSt cas) data).buf.length ≤ 65535 :=
      (writeLoop_chunks C data (initSt cas) (by simp [initSt]) (by simp [initSt])).2
    unfold finalSt
    by_cases hb : (writeLoop C (initSt cas) data).buf.isEmpty = true
    · rw [if_pos hb]
      exact hfin
    · rw [if_neg hb]
      intro c hc
      simp only [emitChunk, List.mem_append, List.mem_singleton] at hc
      rcases hc with hc | hc
      · exact hfin c hc
      · subst hc
        have hne : (writeLoop C (initSt cas) data).buf ≠ [] := by
          simpa [List.isEmpty_iff] using hb
        have : 0 < (writeLoop C (initSt cas) data).buf.length :=
          List.length_pos.mpr hne
        omega

/-- Witness for C5: the 2-byte input `[5, 6]` produces the single chunk
`[5, 6]` (length within bounds) and a recipe of size 2. -/
theorem claim_C5_witness :
    (1 ≤ ([5, 6] : Bytes).length ∧ ([5, 6] : Bytes).length ≤ 65536) ∧
    (finalSt Cid [] [5, 6]).emitted.flatten = [5, 6] ∧
    (create_recipe_from_data Cid [] [5, 6]).1.file_size = ([5, 6] : Bytes).length :=
  ⟨(claim_C5_chunk_emission Cid [] [5, 6]).2.1 [5, 6] (by decide),
   (claim_C5_chunk_emission Cid [] [5, 6]).2.2.1,
   (claim_C5_chunk_emission Cid [] [5, 6]).2.2.2⟩

/-!
## C1: write/read round-trip
-/

theorem write_chunk_lookup_mono (C : Codec) {cas : Cas} (d : Bytes) {h' : Bytes}
    {v : Bytes} (hl : lookupA cas h' = some v) :
    lookupA (write_chunk C cas d).1 h' = some v := by
  unfold write_chunk
  cases hfind : lookupA cas (C.hashFn d) with
  | some blob => simpa using hl
  | none =>
    by_cases he : h' = C.hashFn d
    · subst he
      rw [hl] at hfind
      cases hfind
    · simp only []
      rw [lookupA_insertA_ne _ _ he]
      exact hl

theorem read_chunk_write_mono (C : Codec) {cas : Cas} (d : Bytes) {h' out : Bytes}
    (hr : read_chunk C cas h' = .ok out) :
    read_chunk C (write_chunk C cas d).1 h' = .ok out := by
  unfold read_chunk at hr ⊢
  cases hl : lookupA cas h' with
  | none => rw [hl] at hr; cases hr
  | some blob =>
    rw [hl] at hr
    rw [write_chunk_lookup_mono C d hl]
    exact hr

theorem write_chunk_wf (C : Codec)
    (hRt : ∀ b, C.decompress (C.compress b) = some b) {cas : Cas}
    (hwf : CasWf C cas) (d : Bytes) : CasWf C (write_chunk C cas d).1 := by
  unfold write_chunk
  cases hfind : lookupA cas (C.hashFn d) with
  | some blob => simpa using hwf
  | none =>
    simp only []
    intro h blob hl
    by_cases he : h = C.hashFn d
    · subst he
      rw [lookupA_insertA_self] at hl
      cases hl
      exact ⟨d, hRt d, rfl⟩
    · rw [lookupA_insertA_ne _ _ he] at hl
      exact hwf h blob hl

theorem read_chunk_after_write (C : Codec) (hInj : Function.Injective C.hashFn)
    (hRt : ∀ b, C.decompress (C.compress b) = some b) {cas : Cas}
    (hwf : CasWf C cas) (d : Bytes) :
    read_chunk C (write_chunk C cas d).1 (write_chunk C cas d).2 = .ok d := by
  unfold write_chunk read_chunk
  cases hfind : lookupA cas (C.hashFn d) with
  | some blob =>
    simp only [hfind]
    obtain ⟨d', hdec, hh⟩ := hwf (C.hashFn d) blob hfind
    rw [hdec, hInj hh]
  | none =>
    simp only [hfind]
    rw [lookupA_insertA_self]
    simp [hRt d]

theorem readAll_mono (C : Codec) {cas : Cas} (d : Bytes) : ∀ {hs : List Bytes}
    {out : Bytes}, readAll C cas hs = .ok out →
    readAll C (write_chunk C cas d).1 hs = .ok out := by
  intro hs
  induction hs with
  | nil => intro out h; simpa [readAll] using h
  | cons x t ih =>
    intro out hok
    unfold readAll at hok ⊢
    cases hrc : read_chunk C cas x with
    | error e => rw [hrc] at hok; cases hok
    | ok dx =>
      rw [hrc] at hok
      rw [read_chunk_write_mono C d hrc]
      cases hra : readAll C cas t with
      | error e => rw [hra] at hok; cases hok
      | ok t' =>
        rw [hra] at hok
        rw [ih hra]
        exact hok

theorem readAll_snoc_ok (C : Codec) {cas : Cas} {h d : Bytes} : ∀ {hs : List Bytes}
    {out : Bytes}, readAll C cas hs = .ok out → read_chunk C cas h = .ok d →
    readAll C cas (hs ++ [h]) = .ok (out ++ d) := by
  intro hs
  induction hs with
  | nil =>
    intro out h1 h2
    unfold readAll at h1
    cases h1
    simp [readAll, h2]
  | cons x t ih =>
    intro out h1 h2
    rw [List.cons_append]
    unfold readAll at h1 ⊢
    cases hrc : read_chunk C cas x with
    | error e => rw [hrc] at h1; cases h1
    | ok dx =>
      rw [hrc] at h1
      cases hra : readAll C cas t with
      | error e => rw [hra] at h1; cases h1
      | ok t' =>
        rw [hra] at h1
        have hout : (Except.ok (dx ++ t') : Except FsError Bytes) = .ok out := h1
        injection hout with hout
        subst hout
        rw [ih hra h2]
        simp [List.append_assoc]

theorem emitChunk_inv (C : Codec) (hInj : Function.Injective C.hashFn)
    (hRt : ∀ b, C.decompress (C.compress b) = some b) {s : WriteSt}
    (hwf : CasWf C s.cas)
    (hra : readAll C s.cas s.hashes = .ok s.emitted.flatten) :
    CasWf C (emitChunk C s).cas ∧
      readAll C (emitChunk C s).cas (emitChunk C s).hashes =
        .ok (emitChunk C s).emitted.flatten := by
  refine ⟨by simpa [emitChunk] using write_chunk_wf C hRt hwf s.buf, ?_⟩
  simp only [emitChunk]
  rw [readAll_snoc_ok C (readAll_mono C s.buf hra)
    (read_chunk_after_write C hInj hRt hwf s.buf)]
  simp

theorem writeStep_inv (C : Codec) (hInj : Function.Injective C.hashFn)
    (hRt : ∀ b, C.decompress (C.compress b) = some b) {s : WriteSt} (b : Nat)
    (hwf : CasWf C s.cas)
    (hra : readAll C s.cas s.hashes = .ok s.emitted.flatten) :
    CasWf C (writeStep C s b).cas ∧
      readAll C (writeStep C s b).cas (writeStep C s b).hashes =
        .ok (writeStep C s b).emitted.flatten := by
  unfold writeStep
  by_cases h : cutCond (pushByte s b) = true
  · rw [if_pos h]
    exact emitChunk_inv C hInj hRt (s := pushByte s b) hwf hra
  · rw [if_neg h]
    exact ⟨hwf, hra⟩

theorem writeLoop_inv (C : Codec) (hInj : Function.Injective C.hashFn)
    (hRt : ∀ b, C.decompress (C.compress b) = some b) (data : Bytes) :
    ∀ s : WriteSt, CasWf C s.cas →
    readAll C s.cas s.hashes = .ok s.emitted.flatten →
    CasWf C (writeLoop C s data).cas ∧
      readAll C (writeLoop C s data).cas (writeLoop C s data).hashes =
        .ok (writeLoop C s data).emitted.flatten := by
  induction data with
  | nil => intro s hwf hra; exact ⟨hwf, hra⟩
  | cons b t ih =>
    intro s hwf hra
    simp only [writeLoop]
    obtain ⟨hwf', hra'⟩ := writeStep_inv C hInj hRt b hwf hra
    exact ih (writeStep C s b) hwf' hra'

theorem finalSt_inv (C : Codec) (hInj : Function.Injective C.hashFn)
    (hRt : ∀ b, C.decompress (C.compress b) = some b) {cas : Cas}
    (hwf : CasWf C cas) (data : Bytes) :
    CasWf C (finalSt C cas data).cas ∧
      readAll C (finalSt C cas data).cas (finalSt C cas data).hashes =
        .ok data := by
  have hinit : readAll C (initSt cas).cas (initSt cas).hashes =
      .ok (initSt cas).emitted.flatten := rfl
  obtain ⟨hwf', hra'⟩ := writeLoop_inv C hInj hRt data (initSt cas) hwf hinit
  have hfl := finalSt_flatten_buf C cas data
  unfold finalSt at hfl ⊢
  by_cases hb : (writeLoop C (initSt cas) data).buf.isEmpty = true
  · rw [if_pos hb] at hfl ⊢
    rw [hfl.1] at hra'
    exact ⟨hwf', hra'⟩
  · rw [if_neg hb] at hfl ⊢
    obtain ⟨hwf'', hra''⟩ := emitChunk_inv C hInj hRt hwf' hra'
    rw [hfl.1] at hra''
    exact ⟨hwf'', hra''⟩

/-- **C1** (confirmed).  Over any well-formed CAS (spec invariant I1), for a
hash free of collisions among stored chunks and the round-tripping zstd
codec: `write_file(p, b)` followed immediately by `read_file(p)` succeeds
and returns exactly `b`. -/
theorem claim_C1_write_read_roundtrip (C : Codec)
    (hInj : Function.Injective C.hashFn)
    (hRt : ∀ b, C.decompress (C.compress b) = some b)
    (fm : FM) (hwf : CasWf C fm.cas) (p : String) (data : Bytes) :
    read_file C (write_file C fm p data) p = .ok data := by
  obtain ⟨_, hra⟩ := finalSt_inv C hInj hRt hwf data
  show (match lookupA (insertA fm.db p
      ⟨(finalSt C fm.cas data).total, (finalSt C fm.cas data).hashes, FileKind.File⟩) p with
    | none => Except.error (FsError.notFound p)
    | some r => if r.kind = FileKind.Directory then Except.ok []
        else readAll C (finalSt C fm.cas data).cas r.chunks) = Except.ok data
  rw [lookupA_insertA_self]
  simpa using hra

/-- Witness for C1: writing `[1, 2, 3]` at `"p"` into the empty state and
reading it back. -/
theorem claim_C1_witness :
    read_file Cid (write_file Cid fmE "p" [1, 2, 3]) "p" = .ok [1, 2, 3] :=
  claim_C1_write_read_roundtrip Cid (fun _ _ hh => hh) (fun _ => rfl) fmE
    (by intro h blob hl; simp [fmE, lookupA] at hl) "p" [1, 2, 3]

/-!
## C7: `read_file` error behavior
-/

theorem readAll_of_forall2 (C : Codec) (cas : Cas) : ∀ {hs ds : List Bytes},
    List.Forall₂ (fun h d => read_chunk C cas h = .ok d) hs ds →
    readAll C cas hs = .ok ds.flatten := by
  intro hs ds hf
  induction hf with
  | nil => rfl
  | cons hrel htail ih =>
    unfold readAll
    rw [hrel, ih]
    simp

theorem readAll_first_error (C : Codec) (cas : Cas) : ∀ (pre : List Bytes)
    {h : Bytes} {rest : List Bytes},
    (∀ h' ∈ pre, ∃ d, read_chunk C cas h' = .ok d) →
    (∀ d, read_chunk C cas h ≠ .ok d) →
    readAll C cas (pre ++ h :: rest) = .error (.storageCorrupt h) := by
  intro pre
  induction pre with
  | nil =>
    intro h rest _ herr
    rw [List.nil_append]
    unfold readAll
    cases hrc : read_chunk C cas h with
    | error e => rfl
    | ok d => exact absurd hrc (herr d)
  | cons x t ih =>
    intro h rest hpre herr
    rw [List.cons_append]
    unfold readAll
    obtain ⟨dx, hdx⟩ := hpre x (by simp)
    rw [hdx, ih (fun h' hh => hpre h' (by simp [hh])) herr]

/-- **C7** (confirmed).  `read_file(p)`: fails with `NotFound` when `p` has
no recipe; returns empty bytes when the recipe's kind is `Directory`;
otherwise concatenates the recipe's chunks in order, and fails with a
storage-corruption error naming the offending hash as soon as any referenced
chunk is missing or cannot be decompressed. -/
theorem claim_C7_read_file_errors (C : Codec) (fm : FM) (p : String) :
    (lookupA fm.db p = none → read_file C fm p = .error (.notFound p)) ∧
    (∀ r, lookupA fm.db p = some r → r.kind = .Directory →
      read_file C fm p = .ok []) ∧
    (∀ r ds, lookupA fm.db p = some r → r.kind = .File →
      List.Forall₂ (fun h d => read_chunk C fm.cas h = .ok d) r.chunks ds →
      read_file C fm p = .ok ds.flatten) ∧
    (∀ r pre h rest, lookupA fm.db p = some r → r.kind = .File →
      r.chunks = pre ++ h :: rest →
      (∀ h' ∈ pre, ∃ d, read_chunk C fm.cas h' = .ok d) →
      (∀ d, read_chunk C fm.cas h ≠ .ok d) →
      read_file C fm p = .error (.storageCorrupt h)) := by
  refine ⟨?_, ?_, ?_, ?_⟩
  · intro hnone
    rw [read_file, hnone]
  · intro r hr hdir
    rw [read_file, hr]
    simp [hdir]
  · intro r ds hr hfile hf2
    rw [read_file, hr]
    simp only [hfile]
    rw [if_neg (by simp)]
    exact readAll_of_forall2 C fm.cas hf2
  · intro r pre h rest hr hfile hchunks hpre herr
    rw [read_file, hr]
    simp only [hfile]
    rw [if_neg (by simp), hchunks]
    exact readAll_first_error C fm.cas pre hpre herr

/-- Witness for C7: reading an absent path reports `NotFound`, and reading a
file whose chunk is missing reports `StorageCorrupt` with that hash. -/
theorem claim_C7_witness :
    read_file Cid fmE "x" = .error (.notFound "x") ∧
      read_file Cid fmC "f" = .error (.storageCorrupt [9]) := by
  constructor
  · exact (claim_C7_read_file_errors Cid fmE "x").1 (by rfl)
  · exact (claim_C7_read_file_errors Cid fmC "f").2.2.2 ⟨1, [[9]], .File⟩ [] [9] []
      (by rfl) rfl rfl (by simp)
      (fun d hh => by simp [read_chunk, lookupA, fmC, Cid] at hh)

/-!
## C2: mark-and-sweep garbage collection
-/

theorem eraseA_eq_filter {α β : Type} [DecidableEq α] : ∀ (m : List (α × β)) (k : α),
    eraseA m k = m.filter (fun e => decide (e.1 ≠ k)) := by
  intro m k
  induction m with
  | nil => rfl
  | cons hd tl ih =>
    obtain ⟨a, v⟩ := hd
    by_cases ha : a = k <;> simp [eraseA, ha, ih, List.filter_cons]

theorem foldl_delete_eq_filter : ∀ (l : List Bytes) (cas : Cas),
    l.foldl delete_chunk cas = cas.filter (fun e => decide (e.1 ∉ l)) := by
  intro l
  induction l with
  | nil => intro cas; simp
  | cons x t ih =>
    intro cas
    rw [List.foldl_cons, ih (delete_chunk cas x), delete_chunk, eraseA_eq_filter,
      List.filter_filter]
    apply List.filter_congr
    intro e _
    by_cases h1 : e.1 = x <;> by_cases h2 : e.1 ∈ t <;> simp [h1, h2]

theorem lookupA_foldl_delete : ∀ (l : List Bytes) (cas : Cas) (h : Bytes),
    lookupA (l.foldl delete_chunk cas) h =
      if h ∈ l then none else lookupA cas h := by
  intro l
  induction l with
  | nil => intro cas h; simp
  | cons x t ih =>
    intro cas h
    rw [List.foldl_cons, ih (delete_chunk cas x)]
    by_cases hx : h = x
    · subst hx
      by_cases hm : h ∈ t
      · simp [hm]
      · simp [hm, delete_chunk, lookupA_eraseA_self]
    · by_cases hm : h ∈ t
      · simp [hm, hx]
      · simp [hm, hx, delete_chunk, lookupA_eraseA_ne _ hx]

theorem mem_live_iff (fm : FM) (hnd : (fm.db.map Prod.fst).Nodup) (h : Bytes) :
    h ∈ (fm.db.map (fun q => q.2.chunks)).flatten ↔
      ∃ p r, lookupA fm.db p = some r ∧ h ∈ r.chunks := by
  rw [List.mem_flatten]
  constructor
  · rintro ⟨l, hl, hh⟩
    obtain ⟨⟨p, r⟩, hpr, rfl⟩ := List.mem_map.mp hl
    exact ⟨p, r, mem_lookupA_of_nodup hnd hpr, hh⟩
  · rintro ⟨p, r, hpr, hh⟩
    exact ⟨r.chunks, List.mem_map.mpr ⟨(p, r), lookupA_mem hpr, rfl⟩, hh⟩

theorem length_filter_map_fst (p : Bytes → Bool) : ∀ cas : Cas,
    ((cas.map Prod.fst).filter p).length =
      (cas.filter (fun e => p e.1)).length := by
  intro cas
  induction cas with
  | nil => rfl
  | cons e t ih => cases hp : p e.1 <;> simp [List.filter_cons, hp, ih]

theorem length_filter_add_not {α : Type} (p : α → Bool) : ∀ l : List α,
    (l.filter p).length + (l.filter (fun a => !p a)).length = l.length := by
  intro l
  induction l with
  | nil => rfl
  | cons x t ih => cases hp : p x <;> simp [List.filter_cons, hp] <;> omega

/-- **C2** (confirmed, `run_gc` modelled from the spec).  Over a store whose
recipes all reference existing chunks (spec invariant I2) and whose database
keys are unique: after `run_gc`, the set of chunk hashes on disk equals the
union of the chunk lists of all live recipes, and the returned count is the
number of chunks deleted (deleted + remaining = initially on disk). -/
theorem claim_C2_run_gc (fm : FM) (hnd : (fm.db.map Prod.fst).Nodup)
    (hsound : RecipesSound fm) :
    (∀ h, h ∈ list_all_chunks (run_gc fm).1.cas ↔
      ∃ p r, lookupA fm.db p = some r ∧ h ∈ r.chunks) ∧
    (run_gc fm).2 + (list_all_chunks (run_gc fm).1.cas).length =
      (list_all_chunks fm.cas).length := by
  have hafter : (run_gc fm).1.cas =
      ((list_all_chunks fm.cas).filter (fun h =>
        decide (h ∉ (fm.db.map (fun q => q.2.chunks)).flatten))).foldl
          delete_chunk fm.cas := rfl
  have hcount : (run_gc fm).2 =
      ((list_all_chunks fm.cas).filter (fun h =>
        decide (h ∉ (fm.db.map (fun q => q.2.chunks)).flatten))).length := rfl
  constructor
  · intro h
    show h ∈ ((run_gc fm).1.cas).map Prod.fst ↔ _
    rw [← lookupA_isSome_iff_mem_keys, ← mem_live_iff fm hnd h, hafter,
      lookupA_foldl_delete]
    constructor
    · intro hsome
      by_cases hdead : h ∈ (list_all_chunks fm.cas).filter (fun h =>
          decide (h ∉ (fm.db.map (fun q => q.2.chunks)).flatten))
      · rw [if_pos hdead] at hsome
        cases hsome
      · rw [if_neg hdead] at hsome
        have hkeys : h ∈ list_all_chunks fm.cas :=
          (lookupA_isSome_iff_mem_keys fm.cas h).mp hsome
        by_contra hlive
        exact hdead (List.mem_filter.mpr ⟨hkeys, by simpa using hlive⟩)
    · intro hlive
      have hdead : h ∉ (list_all_chunks fm.cas).filter (fun h =>
          decide (h ∉ (fm.db.map (fun q => q.2.chunks)).flatten)) := by
        intro hmem
        have hne := (List.mem_filter.mp hmem).2
        simp only [decide_eq_true_eq] at hne
        exact hne hlive
      rw [if_neg hdead]
      obtain ⟨p, r, hpr, hh⟩ := (mem_live_iff fm hnd h).mp hlive
      exact hsound p r hpr h hh
  · have hcong : fm.cas.filter (fun e =>
        decide (e.1 ∉ (list_all_chunks fm.cas).filter (fun h =>
          decide (h ∉ (fm.db.map (fun q => q.2.chunks)).flatten)))) =
        fm.cas.filter (fun e =>
          !(decide (e.1 ∉ (fm.db.map (fun q => q.2.chunks)).flatten))) := by
      apply List.filter_congr
      intro e he
      have hk : e.1 ∈ list_all_chunks fm.cas := List.mem_map.mpr ⟨e, he, rfl⟩
      by_cases hl : e.1 ∈ (fm.db.map (fun q => q.2.chunks)).flatten
      · simp [List.mem_filter, hl]
      · simp [List.mem_filter, hl, hk]
    rw [hafter, hcount, foldl_delete_eq_filter, hcong]
    unfold list_all_chunks
    rw [length_filter_map_fst]
    simp only [List.length_map]
    exact length_filter_add_not _ fm.cas

/-- Witness for C2: a store with one live chunk `[7]` and one orphan `[9]`;
its db keys are distinct and its single recipe resolves on disk. -/
theorem claim_C2_witness :
    (∀ h, h ∈ list_all_chunks (run_gc fmG).1.cas ↔
      ∃ p r, lookupA fmG.db p = some r ∧ h ∈ r.chunks) ∧
    (run_gc fmG).2 + (list_all_chunks (run_gc fmG).1.cas).length =
      (list_all_chunks fmG.cas).length := by
  apply claim_C2_run_gc fmG
  · decide
  · intro p r hl h hh
    simp only [fmG, lookupA] at hl
    by_cases hb : "b" = p
    · rw [if_pos hb] at hl
      cases hl
      simp only [List.mem_singleton] at hh
      subst hh
      decide
    · rw [if_neg hb] at hl
      cases hl

end BetterFs
